/-
Verification of the fast Boolean ANF transform crate
(`fast-boolean-anf-transform`).

The crate exposes two functions computing the Algebraic Normal Form of a
Boolean function from its truth table via an in-place XOR butterfly:

* `fast_bool_anf_transform_unsigned` over a bit-packed unsigned integer of
  some fixed width (generic parameter `U`); we model the value as a `Nat`
  together with the bit width `w` of `U` (`w = size_of::<U>() * 8`).
  All bit operations of the source (`>>`, `<<`, `&`, `|`, `!`) are modelled
  by the corresponding `Nat` operations, with Rust's `!x` on a `w`-bit
  type modelled as `bitNot w x`.
* `fast_bool_anf_transform_bool_array` over a mutable boolean slice,
  modelled as a `List Bool` value passed in and returned.

The debug-only validation (`#[cfg(debug_assertions)]` panics) is modelled
by the `..._checked` wrappers returning `Except AnfError _`; the plain
functions model the computation itself (the release-mode body, which is
also the body executed after the checks pass).

Each `while` loop of the source advances `source` by `2 * blocksize ≥ 2`
per iteration and stops once `source ≥ 2 ^ n`, so it performs fewer than
`2 ^ n` iterations; the embedding makes the recursion structural by
passing `2 ^ n` as fuel, which never runs out on the loops as called.
-/
import Mathlib

namespace FastBoolAnf

/-- The three precondition violations reported (as panics) by the
debug-mode validation of the two transforms. -/
inductive AnfError
  | InsufficientCapacity
  | OutOfDomain
  | InvalidLength
deriving DecidableEq

/-- Rust's bitwise complement `!x` on an unsigned integer type of bit
width `w` (for `x < 2 ^ w`). -/
def bitNot (w x : Nat) : Nat := (2 ^ w - 1) ^^^ x

/-- Body of the innermost `for i in 0..blocksize` loop of
`fast_bool_anf_transform_unsigned`: XOR the bit of `final_f` at
`source + i` into the bit at `target + i`. -/
def unsignedInnerBody (w source target : Nat) (final_f : Nat) (i : Nat) : Nat :=
  let f_target_i : Bool := ((final_f >>> (target + i)) &&& 1) != 0
  let f_source_i : Bool := ((final_f >>> (source + i)) &&& 1) != 0
  let f_target_i_xor_f_source_i := xor f_target_i f_source_i
  if f_target_i_xor_f_source_i then final_f ||| (1 <<< (target + i))
  else final_f &&& bitNot w (1 <<< (target + i))

/-- The `for i in 0..blocksize` loop of
`fast_bool_anf_transform_unsigned`, with `target = source + blocksize`. -/
def unsignedInnerLoop (w : Nat) (final_f : Nat) (source blocksize : Nat) : Nat :=
  (List.range blocksize).foldl (unsignedInnerBody w source (source + blocksize)) final_f

/-- The `while source < (u1 << unum_variables_function)` loop of
`fast_bool_anf_transform_unsigned` (n = `num_variables_function`).
`fuel` bounds the recursion and is passed as `2 ^ n` at the call site. -/
def unsignedWhileLoop (w n blocksize : Nat) : Nat → Nat → Nat → Nat
  | 0, final_f, _ => final_f
  | fuel + 1, final_f, source =>
    if source < 1 <<< n then
      unsignedWhileLoop w n blocksize fuel
        (unsignedInnerLoop w final_f source blocksize) (source + (blocksize <<< 1))
    else final_f

/-- `fast_bool_anf_transform_unsigned` from `src/lib.rs`, for an unsigned
type `U` of bit width `w`.  `blocksize` starts at `1` and doubles after
each of the `num_variables_function` passes. -/
def fast_bool_anf_transform_unsigned (w : Nat) (rule_number : Nat)
    (num_variables_function : Nat) : Nat :=
  ((List.range num_variables_function).foldl
    (fun (st : Nat × Nat) _ =>
      (unsignedWhileLoop w num_variables_function st.2
        (1 <<< num_variables_function) st.1 0,
       st.2 <<< 1))
    (rule_number, 1)).1

/-- `fast_bool_anf_transform_unsigned` with the two
`#[cfg(debug_assertions)]` validation panics modelled as errors:
`size_of::<U>() * 8 < 1 << n` reports `InsufficientCapacity` and
`rule_number >= 1 << (1 << n)` reports `OutOfDomain`, in that order,
before any computation. -/
def fast_bool_anf_transform_unsigned_checked (w : Nat) (rule_number : Nat)
    (num_variables_function : Nat) : Except AnfError Nat :=
  if w < 1 <<< num_variables_function then .error .InsufficientCapacity
  else if 1 <<< (1 <<< num_variables_function) ≤ rule_number then .error .OutOfDomain
  else .ok (fast_bool_anf_transform_unsigned w rule_number num_variables_function)

/-- Helper for `trailingZeros`: count trailing zero bits of `x`, giving up
after `steps` divisions (so `tzAux x 64` counts at most 64). -/
def tzAux : Nat → Nat → Nat
  | _, 0 => 0
  | x, steps + 1 => if x % 2 = 1 then 0 else 1 + tzAux (x / 2) steps

/-- Rust's `usize::trailing_zeros` for a 64-bit `usize` (returns 64 on 0),
used by the source to derive `input_size` from the table length. -/
def trailingZeros (x : Nat) : Nat := tzAux x 64

/-- Body of the innermost `for i in 0..blocksize` loop of
`fast_bool_anf_transform_bool_array`:
`rule_truth_table[target + i] ^= rule_truth_table[source + i]`.
In-range indexing is modelled with `getD _ false` (all indices are in
range on the loops as executed on a table of valid length). -/
def arrayInnerBody (source target : Nat) (rule_truth_table : List Bool)
    (i : Nat) : List Bool :=
  rule_truth_table.set (target + i)
    (xor (rule_truth_table.getD (target + i) false)
      (rule_truth_table.getD (source + i) false))

/-- The `for i in 0..blocksize` loop of
`fast_bool_anf_transform_bool_array`, with `target = source + blocksize`. -/
def arrayInnerLoop (rule_truth_table : List Bool) (source blocksize : Nat) :
    List Bool :=
  (List.range blocksize).foldl (arrayInnerBody source (source + blocksize))
    rule_truth_table

/-- The `while source < (1 << input_size)` loop of
`fast_bool_anf_transform_bool_array` (n = `input_size`); `fuel` is passed
as `2 ^ n` at the call site. -/
def arrayWhileLoop (n blocksize : Nat) : Nat → List Bool → Nat → List Bool
  | 0, rule_truth_table, _ => rule_truth_table
  | fuel + 1, rule_truth_table, source =>
    if source < 1 <<< n then
      arrayWhileLoop n blocksize fuel
        (arrayInnerLoop rule_truth_table source blocksize)
        (source + (blocksize <<< 1))
    else rule_truth_table

/-- `fast_bool_anf_transform_bool_array` from `src/lib.rs`:
`input_size = rule_truth_table.len().trailing_zeros()`, then the butterfly
passes run in place; the mutated slice is returned. -/
def fast_bool_anf_transform_bool_array (rule_truth_table : List Bool) :
    List Bool :=
  let input_size := trailingZeros rule_truth_table.length
  ((List.range input_size).foldl
    (fun (st : List Bool × Nat) _ =>
      (arrayWhileLoop input_size st.2 (1 <<< input_size) st.1 0, st.2 <<< 1))
    (rule_truth_table, 1)).1

/-- `fast_bool_anf_transform_bool_array` with the
`#[cfg(debug_assertions)]` length check modelled as an error: the check
precedes the loops, so on failure the caller's buffer (second component)
still holds the untouched input. -/
def fast_bool_anf_transform_bool_array_checked (rule_truth_table : List Bool) :
    Except AnfError Unit × List Bool :=
  let input_size := trailingZeros rule_truth_table.length
  if rule_truth_table.length ≠ 1 <<< input_size then
    (.error .InvalidLength, rule_truth_table)
  else (.ok (), fast_bool_anf_transform_bool_array rule_truth_table)

/-- One butterfly pass of the transform, as a function on truth tables
indexed by `Nat`: pass `k` XORs the entry at `t - 2 ^ k` into the entry at
`t` for every `t` whose bit `k` is set. -/
def anfPass (k : Nat) (g : Nat → Bool) : Nat → Bool :=
  fun t => if t.testBit k then xor (g t) (g (t - 2 ^ k)) else g t

/-- Passes `0, 1, …, m - 1` of the butterfly, in the order the source
performs them (`blocksize = 2 ^ k` on pass `k`). -/
def anfSteps : Nat → (Nat → Bool) → Nat → Bool
  | 0, g => g
  | m + 1, g => anfPass m (anfSteps m g)

/-- The ANF coefficient at index `t` of the Boolean function with truth
table `g` on `n` variables: the XOR (parity) of the truth-table values at
all indices `j` that are bitwise subsets of `t` (`j &&& t = j`). -/
def anfCoeff (g : Nat → Bool) (n t : Nat) : Bool :=
  decide ((((Finset.range (2 ^ n)).filter fun j => j &&& t = j ∧ g j = true).card) % 2 = 1)

/-! ### Bit-level toolkit -/

/-- The bit test written in the source, `(f >> p) & 1 != 0`, is `testBit`. -/
lemma rustBitTest (f p : Nat) : (((f >>> p) &&& 1) != 0) = f.testBit p := by
  simp only [Nat.testBit, Nat.and_comm]

lemma one_shiftLeft_eq (p : Nat) : (1 : Nat) <<< p = 2 ^ p := by
  rw [Nat.shiftLeft_eq, Nat.one_mul]

/-- Bits below `e` of `2 ^ e * m + c` are the bits of `c`. -/
lemma testBit_low {e j : Nat} (m c : Nat) (hj : j < e) :
    (2 ^ e * m + c).testBit j = c.testBit j := by
  have h1 : (2 ^ e * m + c) % 2 ^ e = c % 2 ^ e := Nat.mul_add_mod _ _ _
  have h2 : ((2 ^ e * m + c) % 2 ^ e).testBit j = (2 ^ e * m + c).testBit j := by
    simp [Nat.testBit_mod_two_pow, hj]
  have h3 : (c % 2 ^ e).testBit j = c.testBit j := by
    simp [Nat.testBit_mod_two_pow, hj]
  rw [← h2, h1, h3]

lemma shiftRight_mul_add (e m c : Nat) (hc : c < 2 ^ e) :
    (2 ^ e * m + c) >>> e = m := by
  rw [Nat.shiftRight_eq_div_pow]
  have h : 2 ^ e * m + c = c + 2 ^ e * m := by ring
  rw [h, Nat.add_mul_div_left _ _ (Nat.two_pow_pos e), Nat.div_eq_of_lt hc,
    Nat.zero_add]

/-- Bits at or above `e` of `2 ^ e * m + c` (for `c < 2 ^ e`) are the bits
of `m`, shifted. -/
lemma testBit_high {e j : Nat} (m c : Nat) (hc : c < 2 ^ e) (hj : e ≤ j) :
    (2 ^ e * m + c).testBit j = m.testBit (j - e) := by
  have h1 : ((2 ^ e * m + c) >>> e).testBit (j - e)
      = (2 ^ e * m + c).testBit (e + (j - e)) := Nat.testBit_shiftRight _
  rw [shiftRight_mul_add e m c hc] at h1
  have h2 : e + (j - e) = j := by omega
  rw [h2] at h1
  exact h1.symm

/-- Bit `k` of a position in the source half of a block is clear. -/
lemma testBit_mid_false (k m i : Nat) (hi : i < 2 ^ k) :
    (2 ^ (k + 1) * m + i).testBit k = false := by
  have h : 2 ^ (k + 1) * m + i = 2 ^ k * (2 * m) + i := by ring
  rw [h, testBit_high (2 * m) i hi (Nat.le_refl k), Nat.sub_self]
  simp [Nat.testBit_zero, Nat.mul_mod_right]

/-- Bit `k` of a position in the target half of a block is set. -/
lemma testBit_mid_true (k m i : Nat) (hi : i < 2 ^ k) :
    (2 ^ (k + 1) * m + (2 ^ k + i)).testBit k = true := by
  have h : 2 ^ (k + 1) * m + (2 ^ k + i) = 2 ^ k * (2 * m + 1) + i := by ring
  rw [h, testBit_high (2 * m + 1) i hi (Nat.le_refl k), Nat.sub_self]
  simp only [Nat.testBit_zero]
  have h2 : (2 * m + 1) % 2 = 1 := by omega
  simp [h2]

/-- A number with bit `k` set decomposes as `2^(k+1) * q + (2^k + r)`. -/
lemma decomp_of_testBit_true {k t : Nat} (h : t.testBit k = true) :
    t = 2 ^ (k + 1) * (t / 2 ^ (k + 1)) + (2 ^ k + t % 2 ^ k)
      ∧ t % 2 ^ k < 2 ^ k := by
  refine ⟨?_, Nat.mod_lt _ (Nat.two_pow_pos k)⟩
  have h2 : t % (2 ^ k * 2) = t % 2 ^ k + 2 ^ k * (t / 2 ^ k % 2) := Nat.mod_mul
  have h3 : t / 2 ^ k % 2 = 1 := by simpa [Nat.testBit_to_div_mod] using h
  rw [h3, Nat.mul_one] at h2
  have h5 : 2 ^ (k + 1) = 2 ^ k * 2 := by ring
  have hm : t % 2 ^ (k + 1) = t % 2 ^ k + 2 ^ k := by rw [h5]; exact h2
  have h4 := Nat.div_add_mod t (2 ^ (k + 1))
  omega

/-- A number with bit `k` clear decomposes as `2^(k+1) * q + r`, `r < 2^k`. -/
lemma decomp_of_testBit_false {k t : Nat} (h : t.testBit k = false) :
    t = 2 ^ (k + 1) * (t / 2 ^ (k + 1)) + t % 2 ^ k ∧ t % 2 ^ k < 2 ^ k := by
  refine ⟨?_, Nat.mod_lt _ (Nat.two_pow_pos k)⟩
  have h2 : t % (2 ^ k * 2) = t % 2 ^ k + 2 ^ k * (t / 2 ^ k % 2) := Nat.mod_mul
  have h3 : t / 2 ^ k % 2 = 0 := by
    have := Nat.mod_two_eq_zero_or_one (t / 2 ^ k)
    rcases this with h' | h'
    · exact h'
    · simp [Nat.testBit_to_div_mod, h'] at h
  rw [h3, Nat.mul_zero, Nat.add_zero] at h2
  have h5 : 2 ^ (k + 1) = 2 ^ k * 2 := by ring
  have hm : t % 2 ^ (k + 1) = t % 2 ^ k := by rw [h5]; exact h2
  have h4 := Nat.div_add_mod t (2 ^ (k + 1))
  omega

/-- Clearing bit `k` (when set) clears exactly bit `k`. -/
lemma testBit_sub_pow_self {k t : Nat} (h : t.testBit k = true) :
    (t - 2 ^ k).testBit k = false := by
  obtain ⟨ht, hr⟩ := decomp_of_testBit_true h
  have h1 : t - 2 ^ k = 2 ^ (k + 1) * (t / 2 ^ (k + 1)) + t % 2 ^ k := by omega
  rw [h1]
  exact testBit_mid_false _ _ _ hr

/-- Bits other than `k` survive clearing bit `k` (low case). -/
lemma testBit_sub_pow_low {j k t : Nat} (h : t.testBit k = true) (hj : j < k) :
    (t - 2 ^ k).testBit j = t.testBit j := by
  obtain ⟨ht, hr⟩ := decomp_of_testBit_true h
  have h1 : t - 2 ^ k = 2 ^ (k + 1) * (t / 2 ^ (k + 1)) + t % 2 ^ k := by omega
  rw [h1, testBit_low _ _ (by omega : j < k + 1)]
  conv_rhs => rw [ht]
  rw [testBit_low _ _ (by omega : j < k + 1)]
  have h2 : 2 ^ k + t % 2 ^ k = 2 ^ k * 1 + t % 2 ^ k := by ring
  rw [h2, testBit_low _ _ hj]

/-- Bits other than `k` survive clearing bit `k` (high case). -/
lemma testBit_sub_pow_high {j k t : Nat} (h : t.testBit k = true) (hj : k < j) :
    (t - 2 ^ k).testBit j = t.testBit j := by
  obtain ⟨ht, hr⟩ := decomp_of_testBit_true h
  have hp : 2 ^ (k + 1) = 2 ^ k * 2 := by ring
  have h1 : t - 2 ^ k = 2 ^ (k + 1) * (t / 2 ^ (k + 1)) + t % 2 ^ k := by omega
  rw [h1, testBit_high _ _ (by omega : t % 2 ^ k < 2 ^ (k + 1)) (by omega : k + 1 ≤ j)]
  conv_rhs => rw [ht]
  rw [testBit_high _ _ (by omega : 2 ^ k + t % 2 ^ k < 2 ^ (k + 1)) (by omega : k + 1 ≤ j)]

/-- `s` is a bitwise subset of `t` iff every set bit of `s` is set in `t`. -/
lemma land_eq_self_iff {s t : Nat} :
    s &&& t = s ↔ ∀ j, s.testBit j = true → t.testBit j = true := by
  constructor
  · intro h j hj
    have h2 : (s &&& t).testBit j = s.testBit j := by rw [h]
    rw [Nat.testBit_and, hj] at h2
    simpa using h2
  · intro h
    apply Nat.eq_of_testBit_eq
    intro j
    rw [Nat.testBit_and]
    cases hs : s.testBit j with
    | false => simp
    | true => simp [h j hs]

/-- Parity of a sum, as an XOR of parities. -/
lemma parity_add (a b : Nat) :
    decide ((a + b) % 2 = 1) = xor (decide (a % 2 = 1)) (decide (b % 2 = 1)) := by
  rcases Nat.mod_two_eq_zero_or_one a with ha | ha <;>
    rcases Nat.mod_two_eq_zero_or_one b with hb | hb <;>
      simp [Nat.add_mod, ha, hb]

/-! ### The single-bit write of the packed transform -/

/-- Writing bit `p` of a `w`-bit value via `f | (1 << p)` / `f & !(1 << p)`
changes exactly bit `p`. -/
lemma testBit_writeBit {w f p : Nat} (b : Bool) (hp : p < w) (hf : f < 2 ^ w)
    (q : Nat) :
    (if b then f ||| (1 <<< p) else f &&& bitNot w (1 <<< p)).testBit q
      = if q = p then b else f.testBit q := by
  rw [one_shiftLeft_eq]
  cases b with
  | true =>
    rw [if_pos rfl, Nat.testBit_or, Nat.testBit_two_pow]
    by_cases hq : q = p
    · subst hq
      simp
    · simp [hq, Ne.symm hq]
  | false =>
    rw [if_neg Bool.false_ne_true]
    simp only [bitNot]
    rw [Nat.testBit_and, Nat.testBit_xor, Nat.testBit_two_pow_sub_one,
      Nat.testBit_two_pow]
    by_cases hq : q = p
    · subst hq
      simp [hp]
    · by_cases hqw : q < w
      · simp [hq, hqw, Ne.symm hq]
      · have hfq : f.testBit q = false :=
          Nat.testBit_lt_two_pow
            (lt_of_lt_of_le hf (Nat.pow_le_pow_right (by norm_num) (by omega)))
        simp [hq, hqw, hfq, Ne.symm hq]

/-- The single-bit write keeps the value below `2 ^ w`. -/
lemma writeBit_lt {w f p : Nat} (b : Bool) (hp : p < w) (hf : f < 2 ^ w) :
    (if b then f ||| (1 <<< p) else f &&& bitNot w (1 <<< p)) < 2 ^ w := by
  rw [one_shiftLeft_eq]
  have hpw : 2 ^ p < 2 ^ w := Nat.pow_lt_pow_right (by norm_num) hp
  cases b with
  | true =>
    rw [if_pos rfl]
    exact Nat.or_lt_two_pow hf hpw
  | false =>
    rw [if_neg Bool.false_ne_true]
    simp only [bitNot]
    exact Nat.and_lt_two_pow _ (Nat.xor_lt_two_pow (by omega) hpw)

/-! ### The packed inner loop -/

/-- Invariant of the first `j` iterations of the packed inner loop: the
target half `[source + B, source + B + j)` has been XOR-folded, everything
else is untouched, and the value stays below `2 ^ w`. -/
lemma unsignedInnerAux (w source B : Nat) (f : Nat) (hf : f < 2 ^ w)
    (hw : source + B + B ≤ w) :
    ∀ j, j ≤ B →
      ((List.range j).foldl (unsignedInnerBody w source (source + B)) f < 2 ^ w)
      ∧ ∀ t, ((List.range j).foldl (unsignedInnerBody w source (source + B)) f).testBit t =
          if source + B ≤ t ∧ t < source + B + j then
            xor (f.testBit t) (f.testBit (t - B))
          else f.testBit t := by
  intro j hj
  induction j with
  | zero =>
    refine ⟨by simpa using hf, ?_⟩
    intro t
    simp only [List.range_zero, List.foldl_nil]
    have : ¬(source + B ≤ t ∧ t < source + B + 0) := by omega
    rw [if_neg this]
  | succ i ih =>
    obtain ⟨hglt, hgbits⟩ := ih (by omega)
    set g := (List.range i).foldl (unsignedInnerBody w source (source + B)) f with hg
    rw [List.range_succ, List.foldl_append, List.foldl_cons, List.foldl_nil]
    have hp : source + B + i < w := by omega
    have hbody : ∀ q, (unsignedInnerBody w source (source + B) g i).testBit q =
        if q = source + B + i then
          xor (f.testBit (source + B + i)) (f.testBit (source + i))
        else g.testBit q := by
      intro q
      have hread1 : g.testBit (source + B + i) = f.testBit (source + B + i) := by
        rw [hgbits]
        have : ¬(source + B ≤ source + B + i ∧ source + B + i < source + B + i) := by
          omega
        rw [if_neg this]
      have hread2 : g.testBit (source + i) = f.testBit (source + i) := by
        rw [hgbits]
        have : ¬(source + B ≤ source + i ∧ source + i < source + B + i) := by omega
        rw [if_neg this]
      have hb := testBit_writeBit (w := w) (f := g) (p := source + B + i)
        (xor (g.testBit (source + B + i)) (g.testBit (source + i))) hp hglt q
      simp only [unsignedInnerBody, rustBitTest]
      rw [hb, hread1, hread2]
    have hbodylt : unsignedInnerBody w source (source + B) g i < 2 ^ w := by
      have := writeBit_lt (w := w) (f := g) (p := source + B + i)
        (xor (g.testBit (source + B + i)) (g.testBit (source + i))) hp hglt
      simp only [unsignedInnerBody, rustBitTest]
      exact this
    refine ⟨hbodylt, ?_⟩
    intro t
    rw [hbody t]
    by_cases hq : t = source + B + i
    · subst hq
      have hc : source + B ≤ source + B + i ∧ source + B + i < source + B + (i + 1) := by
        omega
      rw [if_pos rfl, if_pos hc]
      have : source + B + i - B = source + i := by omega
      rw [this]
    · rw [if_neg hq, hgbits t]
      by_cases hc : source + B ≤ t ∧ t < source + B + i
      · rw [if_pos hc, if_pos (by omega)]
      · rw [if_neg hc, if_neg (by omega)]

/-- Effect of the packed inner loop on every bit, plus boundedness. -/
lemma unsignedInnerLoop_spec (w source B : Nat) (f : Nat) (hf : f < 2 ^ w)
    (hw : source + B + B ≤ w) :
    (unsignedInnerLoop w f source B < 2 ^ w)
    ∧ ∀ t, (unsignedInnerLoop w f source B).testBit t =
        if source + B ≤ t ∧ t < source + B + B then
          xor (f.testBit t) (f.testBit (t - B))
        else f.testBit t :=
  unsignedInnerAux w source B f hf hw B (Nat.le_refl B)

/-! ### The packed while loop -/

/-- Effect of the packed `while` loop, run from an aligned `source` with
enough fuel: one whole butterfly pass on `[source, 2 ^ n)`, at blocksize
`2 ^ k`. -/
lemma unsignedWhileLoop_spec (w n k : Nat) (hw : 2 ^ n ≤ w) (hkn : k < n) :
    ∀ fuel f source, f < 2 ^ w → 2 ^ (k + 1) ∣ source →
      2 ^ n ≤ source + fuel * 2 ^ (k + 1) →
      (unsignedWhileLoop w n (2 ^ k) fuel f source < 2 ^ w)
      ∧ ∀ t, (unsignedWhileLoop w n (2 ^ k) fuel f source).testBit t =
          if source ≤ t ∧ t < 2 ^ n ∧ t.testBit k = true then
            xor (f.testBit t) (f.testBit (t - 2 ^ k))
          else f.testBit t := by
  intro fuel
  induction fuel with
  | zero =>
    intro f source hf hdvd hbound
    refine ⟨hf, ?_⟩
    intro t
    have hns : 2 ^ n ≤ source := by simpa using hbound
    have hno : ¬(source ≤ t ∧ t < 2 ^ n ∧ t.testBit k = true) := by
      rintro ⟨h1, h2, _⟩
      omega
    rw [if_neg hno]
    rfl
  | succ fuel ih =>
    intro f source hf hdvd hbound
    have hpow : 2 ^ (k + 1) = 2 ^ k * 2 := by ring
    by_cases hs : source < 2 ^ n
    · have hcond : source < 1 <<< n := by rw [one_shiftLeft_eq]; exact hs
      have hstep : unsignedWhileLoop w n (2 ^ k) (fuel + 1) f source =
          unsignedWhileLoop w n (2 ^ k) fuel (unsignedInnerLoop w f source (2 ^ k))
            (source + (2 ^ k <<< 1)) := by
        simp only [unsignedWhileLoop]
        rw [if_pos hcond]
      have hsh : (2 ^ k) <<< 1 = 2 ^ (k + 1) := by rw [Nat.shiftLeft_eq]; ring
      rw [hsh] at hstep
      rw [hstep]
      have hfit : source + 2 ^ (k + 1) ≤ 2 ^ n := by
        obtain ⟨m, hm⟩ := hdvd
        obtain ⟨M, hM⟩ := Nat.pow_dvd_pow 2 (by omega : k + 1 ≤ n)
        have hmM : m < M := by
          by_contra hmM
          push_neg at hmM
          have : 2 ^ (k + 1) * M ≤ 2 ^ (k + 1) * m := Nat.mul_le_mul_left _ hmM
          omega
        have h1 : source + 2 ^ (k + 1) = 2 ^ (k + 1) * (m + 1) := by rw [hm]; ring
        have h2 : 2 ^ (k + 1) * (m + 1) ≤ 2 ^ (k + 1) * M :=
          Nat.mul_le_mul_left _ (by omega)
        omega
      have hw2 : source + 2 ^ k + 2 ^ k ≤ w := by omega
      obtain ⟨hinlt, hinbits⟩ := unsignedInnerLoop_spec w source (2 ^ k) f hf hw2
      have hdvd' : 2 ^ (k + 1) ∣ (source + 2 ^ (k + 1)) := Nat.dvd_add hdvd dvd_rfl
      have hbound' : 2 ^ n ≤ (source + 2 ^ (k + 1)) + fuel * 2 ^ (k + 1) := by
        have h : (fuel + 1) * 2 ^ (k + 1) = fuel * 2 ^ (k + 1) + 2 ^ (k + 1) := by
          ring
        omega
      obtain ⟨hwlt, hwbits⟩ := ih (unsignedInnerLoop w f source (2 ^ k))
        (source + 2 ^ (k + 1)) hinlt hdvd' hbound'
      refine ⟨hwlt, ?_⟩
      intro t
      rw [hwbits t]
      obtain ⟨m, hm⟩ := hdvd
      by_cases h1 : source + 2 ^ (k + 1) ≤ t
      · have hr1 : (unsignedInnerLoop w f source (2 ^ k)).testBit t = f.testBit t := by
          rw [hinbits t, if_neg (by omega)]
        by_cases h2 : t < 2 ^ n ∧ t.testBit k = true
        · rw [if_pos ⟨h1, h2.1, h2.2⟩, if_pos ⟨by omega, h2.1, h2.2⟩, hr1]
          have hr2 : (unsignedInnerLoop w f source (2 ^ k)).testBit (t - 2 ^ k)
              = f.testBit (t - 2 ^ k) := by
            rw [hinbits _, if_neg]
            rintro ⟨ha, hb⟩
            have hbit : (t - 2 ^ k).testBit k = true := by
              have he : t - 2 ^ k
                  = 2 ^ (k + 1) * m + (2 ^ k + (t - 2 ^ k - (source + 2 ^ k))) := by
                omega
              rw [he]
              exact testBit_mid_true k m _ (by omega)
            have hbit2 : (t - 2 ^ k).testBit k = false := testBit_sub_pow_self h2.2
            rw [hbit] at hbit2
            simp at hbit2
          rw [hr2]
        · rw [if_neg (by rintro ⟨_, hx, hy⟩; exact h2 ⟨hx, hy⟩),
            if_neg (by rintro ⟨_, hx, hy⟩; exact h2 ⟨hx, hy⟩), hr1]
      · rw [if_neg (by rintro ⟨hx, _, _⟩; exact h1 hx), hinbits t]
        by_cases h3 : source ≤ t
        · by_cases h4 : source + 2 ^ k ≤ t
          · rw [if_pos (by omega : source + 2 ^ k ≤ t ∧ t < source + 2 ^ k + 2 ^ k)]
            have hbitk : t.testBit k = true := by
              have he : t = 2 ^ (k + 1) * m + (2 ^ k + (t - (source + 2 ^ k))) := by
                omega
              rw [he]
              exact testBit_mid_true k m _ (by omega)
            rw [if_pos ⟨h3, by omega, hbitk⟩]
          · rw [if_neg (by omega)]
            have hbitk : t.testBit k = false := by
              have he : t = 2 ^ (k + 1) * m + (t - source) := by omega
              rw [he]
              exact testBit_mid_false k m _ (by omega)
            rw [if_neg (by rintro ⟨_, _, hb⟩; rw [hbitk] at hb; simp at hb)]
        · rw [if_neg (by omega), if_neg (by rintro ⟨hx, _, _⟩; omega)]
    · have hcond : ¬(source < 1 <<< n) := by rw [one_shiftLeft_eq]; exact hs
      have hstep : unsignedWhileLoop w n (2 ^ k) (fuel + 1) f source = f := by
        simp only [unsignedWhileLoop]
        rw [if_neg hcond]
      rw [hstep]
      refine ⟨hf, ?_⟩
      intro t
      rw [if_neg (by rintro ⟨hx, hy, _⟩; omega)]

/-! ### Packed transform = butterfly passes -/

/-- The first `m` passes of the packed transform (pass `k` runs the while
loop at blocksize `2 ^ k`), the form the `foldl` over passes unfolds to. -/
def unsignedPasses (w n : Nat) : Nat → Nat → Nat
  | 0, f => f
  | m + 1, f => unsignedWhileLoop w n (2 ^ m) (1 <<< n) (unsignedPasses w n m f) 0

lemma fast_unsigned_eq_passes (w n v : Nat) :
    fast_bool_anf_transform_unsigned w v n = unsignedPasses w n n v := by
  suffices h : ∀ m, (List.range m).foldl
      (fun (st : Nat × Nat) _ =>
        (unsignedWhileLoop w n st.2 (1 <<< n) st.1 0, st.2 <<< 1)) (v, 1)
      = (unsignedPasses w n m v, 2 ^ m) by
    show ((List.range n).foldl _ (v, 1)).1 = _
    rw [h n]
  intro m
  induction m with
  | zero => simp [unsignedPasses]
  | succ m ih =>
    rw [List.range_succ, List.foldl_append, ih, List.foldl_cons, List.foldl_nil]
    have hsh : (2 : Nat) ^ m <<< 1 = 2 ^ (m + 1) := by rw [Nat.shiftLeft_eq]; ring
    simp only [unsignedPasses]
    rw [hsh]

/-- The packed passes stay bounded, leave bits at or above `2 ^ n`
untouched, and act as the abstract butterfly on bits below `2 ^ n`. -/
lemma unsignedPasses_spec (w n : Nat) (hw : 2 ^ n ≤ w) :
    ∀ m, m ≤ n → ∀ v, v < 2 ^ w →
      (unsignedPasses w n m v < 2 ^ w)
      ∧ (∀ t, 2 ^ n ≤ t → (unsignedPasses w n m v).testBit t = v.testBit t)
      ∧ (∀ t, t < 2 ^ n → (unsignedPasses w n m v).testBit t
          = anfSteps m v.testBit t) := by
  intro m
  induction m with
  | zero =>
    intro _ v hv
    exact ⟨hv, fun t _ => rfl, fun t _ => rfl⟩
  | succ m ih =>
    intro hm v hv
    obtain ⟨hplt, hphigh, hplow⟩ := ih (by omega) v hv
    have h1n : (1 : Nat) <<< n = 2 ^ n := one_shiftLeft_eq n
    have hbound : 2 ^ n ≤ 0 + (1 <<< n) * 2 ^ (m + 1) := by
      rw [h1n]
      have := Nat.le_mul_of_pos_right (2 ^ n) (Nat.two_pow_pos (m + 1))
      omega
    obtain ⟨hwlt, hwbits⟩ := unsignedWhileLoop_spec w n m hw (by omega) (1 <<< n)
      (unsignedPasses w n m v) 0 hplt (dvd_zero _) hbound
    refine ⟨hwlt, ?_, ?_⟩
    · intro t ht
      show (unsignedWhileLoop w n (2 ^ m) (1 <<< n) (unsignedPasses w n m v) 0).testBit t
        = v.testBit t
      rw [hwbits t, if_neg (by rintro ⟨_, hx, _⟩; omega)]
      exact hphigh t ht
    · intro t ht
      show (unsignedWhileLoop w n (2 ^ m) (1 <<< n) (unsignedPasses w n m v) 0).testBit t
        = anfSteps (m + 1) v.testBit t
      rw [hwbits t]
      simp only [anfSteps, anfPass]
      by_cases hb : t.testBit m = true
      · have hts : t - 2 ^ m < 2 ^ n := lt_of_le_of_lt (Nat.sub_le _ _) ht
        rw [if_pos ⟨Nat.zero_le t, ht, hb⟩, if_pos hb, hplow t ht,
          hplow (t - 2 ^ m) hts]
      · rw [if_neg (fun hc => hb hc.2.2), if_neg hb]
        exact hplow t ht

/-- Combined specification of `fast_bool_anf_transform_unsigned`. -/
lemma fast_unsigned_spec (w n v : Nat) (hw : 2 ^ n ≤ w) (hv : v < 2 ^ w) :
    (fast_bool_anf_transform_unsigned w v n < 2 ^ w)
    ∧ (∀ t, 2 ^ n ≤ t → (fast_bool_anf_transform_unsigned w v n).testBit t
        = v.testBit t)
    ∧ (∀ t, t < 2 ^ n → (fast_bool_anf_transform_unsigned w v n).testBit t
        = anfSteps n v.testBit t) := by
  rw [fast_unsigned_eq_passes]
  exact unsignedPasses_spec w n hw n (Nat.le_refl n) v hv

/-! ### The array inner loop -/

/-- `getD` after `set`, with the out-of-range no-op made explicit. -/
lemma getD_set (l : List Bool) (p : Nat) (b : Bool) (q : Nat) :
    (l.set p b).getD q false
      = if q = p ∧ p < l.length then b else l.getD q false := by
  simp only [List.getD_eq_getElem?_getD, List.getElem?_set]
  by_cases h1 : p = q
  · subst h1
    by_cases h2 : p < l.length
    · simp [h2]
    · simp [h2, List.getElem?_eq_none (Nat.le_of_not_lt h2)]
  · simp [h1, Ne.symm h1]

/-- Invariant of the first `j` iterations of the array inner loop. -/
lemma arrayInnerAux (source B : Nat) (l : List Bool)
    (hw : source + B + B ≤ l.length) :
    ∀ j, j ≤ B →
      (((List.range j).foldl (arrayInnerBody source (source + B)) l).length
        = l.length)
      ∧ ∀ t, ((List.range j).foldl (arrayInnerBody source (source + B)) l).getD t false =
          if source + B ≤ t ∧ t < source + B + j then
            xor (l.getD t false) (l.getD (t - B) false)
          else l.getD t false := by
  intro j hj
  induction j with
  | zero =>
    refine ⟨rfl, ?_⟩
    intro t
    simp only [List.range_zero, List.foldl_nil]
    have : ¬(source + B ≤ t ∧ t < source + B + 0) := by omega
    rw [if_neg this]
  | succ i ih =>
    obtain ⟨hglen, hgbits⟩ := ih (by omega)
    set g := (List.range i).foldl (arrayInnerBody source (source + B)) l with hgdef
    rw [List.range_succ, List.foldl_append, List.foldl_cons, List.foldl_nil]
    have hp : source + B + i < g.length := by omega
    have hbody : ∀ q, (arrayInnerBody source (source + B) g i).getD q false =
        if q = source + B + i then
          xor (l.getD (source + B + i) false) (l.getD (source + i) false)
        else g.getD q false := by
      intro q
      have hread1 : g.getD (source + B + i) false = l.getD (source + B + i) false := by
        rw [hgbits]
        have : ¬(source + B ≤ source + B + i ∧ source + B + i < source + B + i) := by
          omega
        rw [if_neg this]
      have hread2 : g.getD (source + i) false = l.getD (source + i) false := by
        rw [hgbits]
        have : ¬(source + B ≤ source + i ∧ source + i < source + B + i) := by omega
        rw [if_neg this]
      simp only [arrayInnerBody]
      rw [getD_set]
      by_cases hq : q = source + B + i
      · rw [if_pos ⟨hq, hp⟩, if_pos hq, hread1, hread2]
      · rw [if_neg (by rintro ⟨hx, _⟩; exact hq hx), if_neg hq]
    have hbodylen : (arrayInnerBody source (source + B) g i).length = l.length := by
      simp only [arrayInnerBody]
      rw [List.length_set]
      exact hglen
    refine ⟨hbodylen, ?_⟩
    intro t
    rw [hbody t]
    by_cases hq : t = source + B + i
    · subst hq
      rw [if_pos rfl, if_pos (by omega : source + B ≤ source + B + i
          ∧ source + B + i < source + B + (i + 1))]
      have : source + B + i - B = source + i := by omega
      rw [this]
    · rw [if_neg hq, hgbits t]
      by_cases hc : source + B ≤ t ∧ t < source + B + i
      · rw [if_pos hc, if_pos (by omega)]
      · rw [if_neg hc, if_neg (by omega)]

/-- Effect of the array inner loop on every entry, plus length. -/
lemma arrayInnerLoop_spec (source B : Nat) (l : List Bool)
    (hw : source + B + B ≤ l.length) :
    ((arrayInnerLoop l source B).length = l.length)
    ∧ ∀ t, (arrayInnerLoop l source B).getD t false =
        if source + B ≤ t ∧ t < source + B + B then
          xor (l.getD t false) (l.getD (t - B) false)
        else l.getD t false :=
  arrayInnerAux source B l hw B (Nat.le_refl B)

/-! ### The array while loop -/

/-- Effect of the array `while` loop, run from an aligned `source` with
enough fuel: one whole butterfly pass on `[source, 2 ^ n)`. -/
lemma arrayWhileLoop_spec (n k : Nat) (hkn : k < n) :
    ∀ fuel (l : List Bool) source, 2 ^ n ≤ l.length → 2 ^ (k + 1) ∣ source →
      2 ^ n ≤ source + fuel * 2 ^ (k + 1) →
      ((arrayWhileLoop n (2 ^ k) fuel l source).length = l.length)
      ∧ ∀ t, (arrayWhileLoop n (2 ^ k) fuel l source).getD t false =
          if source ≤ t ∧ t < 2 ^ n ∧ t.testBit k = true then
            xor (l.getD t false) (l.getD (t - 2 ^ k) false)
          else l.getD t false := by
  intro fuel
  induction fuel with
  | zero =>
    intro l source hl hdvd hbound
    refine ⟨rfl, ?_⟩
    intro t
    have hns : 2 ^ n ≤ source := by simpa using hbound
    have hno : ¬(source ≤ t ∧ t < 2 ^ n ∧ t.testBit k = true) := by
      rintro ⟨h1, h2, _⟩
      omega
    rw [if_neg hno]
    rfl
  | succ fuel ih =>
    intro l source hl hdvd hbound
    have hpow : 2 ^ (k + 1) = 2 ^ k * 2 := by ring
    by_cases hs : source < 2 ^ n
    · have hcond : source < 1 <<< n := by rw [one_shiftLeft_eq]; exact hs
      have hstep : arrayWhileLoop n (2 ^ k) (fuel + 1) l source =
          arrayWhileLoop n (2 ^ k) fuel (arrayInnerLoop l source (2 ^ k))
            (source + (2 ^ k <<< 1)) := by
        simp only [arrayWhileLoop]
        rw [if_pos hcond]
      have hsh : (2 ^ k) <<< 1 = 2 ^ (k + 1) := by rw [Nat.shiftLeft_eq]; ring
      rw [hsh] at hstep
      rw [hstep]
      have hfit : source + 2 ^ (k + 1) ≤ 2 ^ n := by
        obtain ⟨m, hm⟩ := hdvd
        obtain ⟨M, hM⟩ := Nat.pow_dvd_pow 2 (by omega : k + 1 ≤ n)
        have hmM : m < M := by
          by_contra hmM
          push_neg at hmM
          have : 2 ^ (k + 1) * M ≤ 2 ^ (k + 1) * m := Nat.mul_le_mul_left _ hmM
          omega
        have h1 : source + 2 ^ (k + 1) = 2 ^ (k + 1) * (m + 1) := by rw [hm]; ring
        have h2 : 2 ^ (k + 1) * (m + 1) ≤ 2 ^ (k + 1) * M :=
          Nat.mul_le_mul_left _ (by omega)
        omega
      have hw2 : source + 2 ^ k + 2 ^ k ≤ l.length := by omega
      obtain ⟨hinlen, hinbits⟩ := arrayInnerLoop_spec source (2 ^ k) l hw2
      have hdvd' : 2 ^ (k + 1) ∣ (source + 2 ^ (k + 1)) := Nat.dvd_add hdvd dvd_rfl
      have hbound' : 2 ^ n ≤ (source + 2 ^ (k + 1)) + fuel * 2 ^ (k + 1) := by
        have h : (fuel + 1) * 2 ^ (k + 1) = fuel * 2 ^ (k + 1) + 2 ^ (k + 1) := by
          ring
        omega
      obtain ⟨hwlen, hwbits⟩ := ih (arrayInnerLoop l source (2 ^ k))
        (source + 2 ^ (k + 1)) (by omega) hdvd' hbound'
      refine ⟨by rw [hwlen, hinlen], ?_⟩
      intro t
      rw [hwbits t]
      obtain ⟨m, hm⟩ := hdvd
      by_cases h1 : source + 2 ^ (k + 1) ≤ t
      · have hr1 : (arrayInnerLoop l source (2 ^ k)).getD t false = l.getD t false := by
          rw [hinbits t, if_neg (by omega)]
        by_cases h2 : t < 2 ^ n ∧ t.testBit k = true
        · rw [if_pos ⟨h1, h2.1, h2.2⟩, if_pos ⟨by omega, h2.1, h2.2⟩, hr1]
          have hr2 : (arrayInnerLoop l source (2 ^ k)).getD (t - 2 ^ k) false
              = l.getD (t - 2 ^ k) false := by
            rw [hinbits _, if_neg]
            rintro ⟨ha, hb⟩
            have hbit : (t - 2 ^ k).testBit k = true := by
              have he : t - 2 ^ k
                  = 2 ^ (k + 1) * m + (2 ^ k + (t - 2 ^ k - (source + 2 ^ k))) := by
                omega
              rw [he]
              exact testBit_mid_true k m _ (by omega)
            have hbit2 : (t - 2 ^ k).testBit k = false := testBit_sub_pow_self h2.2
            rw [hbit] at hbit2
            simp at hbit2
          rw [hr2]
        · rw [if_neg (by rintro ⟨_, hx, hy⟩; exact h2 ⟨hx, hy⟩),
            if_neg (by rintro ⟨_, hx, hy⟩; exact h2 ⟨hx, hy⟩), hr1]
      · rw [if_neg (by rintro ⟨hx, _, _⟩; exact h1 hx), hinbits t]
        by_cases h3 : source ≤ t
        · by_cases h4 : source + 2 ^ k ≤ t
          · rw [if_pos (by omega : source + 2 ^ k ≤ t ∧ t < source + 2 ^ k + 2 ^ k)]
            have hbitk : t.testBit k = true := by
              have he : t = 2 ^ (k + 1) * m + (2 ^ k + (t - (source + 2 ^ k))) := by
                omega
              rw [he]
              exact testBit_mid_true k m _ (by omega)
            rw [if_pos ⟨h3, by omega, hbitk⟩]
          · rw [if_neg (by omega)]
            have hbitk : t.testBit k = false := by
              have he : t = 2 ^ (k + 1) * m + (t - source) := by omega
              rw [he]
              exact testBit_mid_false k m _ (by omega)
            rw [if_neg (by rintro ⟨_, _, hb⟩; rw [hbitk] at hb; simp at hb)]
        · rw [if_neg (by omega), if_neg (by rintro ⟨hx, _, _⟩; omega)]
    · have hcond : ¬(source < 1 <<< n) := by rw [one_shiftLeft_eq]; exact hs
      have hstep : arrayWhileLoop n (2 ^ k) (fuel + 1) l source = l := by
        simp only [arrayWhileLoop]
        rw [if_neg hcond]
      rw [hstep]
      refine ⟨rfl, ?_⟩
      intro t
      rw [if_neg (by rintro ⟨hx, hy, _⟩; omega)]

/-! ### Array transform = butterfly passes -/

/-- The first `m` passes of the array transform. -/
def arrayPasses (n : Nat) : Nat → List Bool → List Bool
  | 0, l => l
  | m + 1, l => arrayWhileLoop n (2 ^ m) (1 <<< n) (arrayPasses n m l) 0

lemma fast_array_eq_passes (l : List Bool) :
    fast_bool_anf_transform_bool_array l
      = arrayPasses (trailingZeros l.length) (trailingZeros l.length) l := by
  suffices h : ∀ m, (List.range m).foldl
      (fun (st : List Bool × Nat) _ =>
        (arrayWhileLoop (trailingZeros l.length) st.2
          (1 <<< trailingZeros l.length) st.1 0, st.2 <<< 1)) (l, 1)
      = (arrayPasses (trailingZeros l.length) m l, 2 ^ m) by
    show ((List.range (trailingZeros l.length)).foldl _ (l, 1)).1 = _
    rw [h (trailingZeros l.length)]
  intro m
  induction m with
  | zero => simp [arrayPasses]
  | succ m ih =>
    rw [List.range_succ, List.foldl_append, ih, List.foldl_cons, List.foldl_nil]
    have hsh : (2 : Nat) ^ m <<< 1 = 2 ^ (m + 1) := by rw [Nat.shiftLeft_eq]; ring
    simp only [arrayPasses]
    rw [hsh]

/-- `usize::trailing_zeros` of an exact power of two below `2 ^ 64`. -/
lemma trailingZeros_two_pow {n : Nat} (hn : n < 64) :
    trailingZeros (2 ^ n) = n := by
  suffices h : ∀ steps n, n < steps → tzAux (2 ^ n) steps = n from
    h 64 n hn
  intro steps
  induction steps with
  | zero => intro n hn; omega
  | succ steps ih =>
    intro n hn
    match n with
    | 0 => simp [tzAux]
    | n + 1 =>
      have h2 : 2 ^ (n + 1) % 2 = 0 := by
        have : 2 ^ (n + 1) = 2 ^ n * 2 := by ring
        omega
      simp only [tzAux, h2]
      rw [if_neg (by omega)]
      have h3 : 2 ^ (n + 1) / 2 = 2 ^ n := by
        have : 2 ^ (n + 1) = 2 ^ n * 2 := by ring
        omega
      rw [h3, ih n (by omega)]
      omega

/-- The array passes preserve the length and act as the abstract butterfly
on entries below `2 ^ n`. -/
lemma arrayPasses_spec (n : Nat) :
    ∀ m, m ≤ n → ∀ l : List Bool, 2 ^ n ≤ l.length →
      ((arrayPasses n m l).length = l.length)
      ∧ (∀ t, t < 2 ^ n → (arrayPasses n m l).getD t false
          = anfSteps m (fun j => l.getD j false) t) := by
  intro m
  induction m with
  | zero =>
    intro _ l hl
    exact ⟨rfl, fun t _ => rfl⟩
  | succ m ih =>
    intro hm l hl
    obtain ⟨hplen, hplow⟩ := ih (by omega) l hl
    have h1n : (1 : Nat) <<< n = 2 ^ n := one_shiftLeft_eq n
    have hbound : 2 ^ n ≤ 0 + (1 <<< n) * 2 ^ (m + 1) := by
      rw [h1n]
      have := Nat.le_mul_of_pos_right (2 ^ n) (Nat.two_pow_pos (m + 1))
      omega
    obtain ⟨hwlen, hwbits⟩ := arrayWhileLoop_spec n m (by omega) (1 <<< n)
      (arrayPasses n m l) 0 (by omega) (dvd_zero _) hbound
    refine ⟨?_, ?_⟩
    · show (arrayWhileLoop n (2 ^ m) (1 <<< n) (arrayPasses n m l) 0).length = l.length
      rw [hwlen, hplen]
    intro t ht
    show (arrayWhileLoop n (2 ^ m) (1 <<< n) (arrayPasses n m l) 0).getD t false
      = anfSteps (m + 1) (fun j => l.getD j false) t
    rw [hwbits t]
    simp only [anfSteps, anfPass]
    by_cases hb : t.testBit m = true
    · have hts : t - 2 ^ m < 2 ^ n := lt_of_le_of_lt (Nat.sub_le _ _) ht
      rw [if_pos ⟨Nat.zero_le t, ht, hb⟩, if_pos hb, hplow t ht,
        hplow (t - 2 ^ m) hts]
    · rw [if_neg (fun hc => hb hc.2.2), if_neg hb]
      exact hplow t ht

/-- Combined specification of `fast_bool_anf_transform_bool_array` on a
table of length `2 ^ n` (for a 64-bit `usize`, `n < 64`). -/
lemma fast_array_spec (n : Nat) (l : List Bool) (hn : n < 64)
    (hl : l.length = 2 ^ n) :
    ((fast_bool_anf_transform_bool_array l).length = l.length)
    ∧ (∀ t, t < 2 ^ n → (fast_bool_anf_transform_bool_array l).getD t false
        = anfSteps n (fun j => l.getD j false) t) := by
  have htz : trailingZeros l.length = n := by rw [hl, trailingZeros_two_pow hn]
  rw [fast_array_eq_passes, htz]
  exact arrayPasses_spec n n (Nat.le_refl n) l (by omega)

/-! ### Properties of the abstract butterfly -/

/-- `anfSteps m g t` only reads `g` at indices `≤ t`. -/
lemma anfSteps_congr (m : Nat) (g1 g2 : Nat → Bool) :
    ∀ t, (∀ s, s ≤ t → g1 s = g2 s) → anfSteps m g1 t = anfSteps m g2 t := by
  induction m with
  | zero => intro t h; exact h t (Nat.le_refl t)
  | succ m ih =>
    intro t h
    simp only [anfSteps, anfPass]
    by_cases hb : t.testBit m = true
    · rw [if_pos hb, if_pos hb, ih t h,
        ih (t - 2 ^ m) (fun s hs => h s (le_trans hs (Nat.sub_le _ _)))]
    · rw [if_neg hb, if_neg hb]
      exact ih t h

lemma testBit_two_pow_add_self {k s : Nat} (hs : s < 2 ^ k) :
    (2 ^ k + s).testBit k = true := by
  have he : 2 ^ k + s = 2 ^ (k + 1) * 0 + (2 ^ k + s) := by ring
  rw [he]
  exact testBit_mid_true k 0 s hs

lemma testBit_two_pow_add_low {j k : Nat} (s : Nat) (hj : j < k) :
    (2 ^ k + s).testBit j = s.testBit j := by
  have he : 2 ^ k + s = 2 ^ k * 1 + s := by ring
  rw [he]
  exact testBit_low 1 s hj

lemma testBit_two_pow_add_high {j k s : Nat} (hs : s < 2 ^ k) (hj : k < j) :
    (2 ^ k + s).testBit j = false := by
  apply Nat.testBit_lt_two_pow
  have h1 : 2 ^ (k + 1) ≤ 2 ^ j := Nat.pow_le_pow_right (by norm_num) (by omega)
  have hp : 2 ^ (k + 1) = 2 ^ k * 2 := by ring
  omega

/-- Adding `2 ^ k` to a submask candidate below `2 ^ k` preserves the
subset relation with any `t` whose bit `k` is set. -/
lemma land_shift_iff {k s t : Nat} (hb : t.testBit k = true) (hs : s < 2 ^ k) :
    (2 ^ k + s) &&& t = 2 ^ k + s ↔ s &&& t = s := by
  rw [land_eq_self_iff, land_eq_self_iff]
  constructor
  · intro h j hj
    have hjk : j < k := by
      by_contra hjk
      push_neg at hjk
      have hf : s.testBit j = false :=
        Nat.testBit_lt_two_pow
          (lt_of_lt_of_le hs (Nat.pow_le_pow_right (by norm_num) hjk))
      rw [hf] at hj
      exact absurd hj (by simp)
    exact h j (by rw [testBit_two_pow_add_low s hjk]; exact hj)
  · intro h j hj
    rcases lt_trichotomy j k with h1 | h1 | h1
    · rw [testBit_two_pow_add_low s h1] at hj
      exact h j hj
    · rw [h1]
      exact hb
    · rw [testBit_two_pow_add_high hs h1] at hj
      exact absurd hj (by simp)

/-- Clearing bit `k` of `t` (when set) preserves the subset relation for
submask candidates below `2 ^ k`. -/
lemma land_sub_pow_iff {k s t : Nat} (hb : t.testBit k = true) (hs : s < 2 ^ k) :
    s &&& (t - 2 ^ k) = s ↔ s &&& t = s := by
  rw [land_eq_self_iff, land_eq_self_iff]
  have hjk : ∀ j, s.testBit j = true → j < k := by
    intro j hj
    by_contra hjk
    push_neg at hjk
    have hf : s.testBit j = false :=
      Nat.testBit_lt_two_pow
        (lt_of_lt_of_le hs (Nat.pow_le_pow_right (by norm_num) hjk))
    rw [hf] at hj
    exact absurd hj (by simp)
  constructor
  · intro h j hj
    have := h j hj
    rwa [testBit_sub_pow_low hb (hjk j hj)] at this
  · intro h j hj
    rw [testBit_sub_pow_low hb (hjk j hj)]
    exact h j hj

/-- After passes `0, …, k - 1`, the entry at `t` is the parity of the
input over the positions obtained by replacing the low `k` bits of `t`
with any submask of them. -/
lemma anfSteps_parity (g : Nat → Bool) :
    ∀ k t, anfSteps k g t =
      decide ((((Finset.range (2 ^ k)).filter fun s =>
        s &&& t = s ∧ g (t - t % 2 ^ k + s) = true).card) % 2 = 1) := by
  intro k
  induction k with
  | zero =>
    intro t
    simp only [anfSteps, pow_zero, Finset.range_one, Finset.filter_singleton]
    cases hg : g t with
    | false =>
      rw [if_neg (by simp [Nat.mod_one, hg])]
      simp
    | true =>
      rw [if_pos (by simp [Nat.mod_one, hg])]
      simp
  | succ k ih =>
    intro t
    have hpow : (2 : Nat) ^ (k + 1) = 2 ^ k * 2 := by ring
    simp only [anfSteps, anfPass]
    by_cases hb : t.testBit k = true
    · rw [if_pos hb, ih t, ih (t - 2 ^ k)]
      obtain ⟨hdec, hr⟩ := decomp_of_testBit_true hb
      have h4 := Nat.div_add_mod t (2 ^ (k + 1))
      have hmod : t % 2 ^ (k + 1) = 2 ^ k + t % 2 ^ k := by omega
      have hsub1 : t - t % 2 ^ (k + 1) = 2 ^ (k + 1) * (t / 2 ^ (k + 1)) := by omega
      have htk : t - 2 ^ k = 2 ^ (k + 1) * (t / 2 ^ (k + 1)) + t % 2 ^ k := by omega
      have hmod2 : (t - 2 ^ k) % 2 ^ k = t % 2 ^ k := by
        rw [htk]
        have he : 2 ^ (k + 1) * (t / 2 ^ (k + 1))
            = 2 ^ k * (2 * (t / 2 ^ (k + 1))) := by ring
        rw [he, Nat.mul_add_mod]
        exact Nat.mod_eq_of_lt hr
      have hsub2 : (t - 2 ^ k) - (t - 2 ^ k) % 2 ^ k
          = 2 ^ (k + 1) * (t / 2 ^ (k + 1)) := by
        rw [hmod2]
        omega
      have hsub3 : t - t % 2 ^ k = 2 ^ (k + 1) * (t / 2 ^ (k + 1)) + 2 ^ k := by
        omega
      set A := (Finset.range (2 ^ k)).filter
        (fun s => s &&& t = s ∧ g (t - t % 2 ^ k + s) = true) with hA
      set B := (Finset.range (2 ^ k)).filter
        (fun s => s &&& (t - 2 ^ k) = s
          ∧ g ((t - 2 ^ k) - (t - 2 ^ k) % 2 ^ k + s) = true) with hB
      set C := (Finset.range (2 ^ (k + 1))).filter
        (fun s => s &&& t = s ∧ g (t - t % 2 ^ (k + 1) + s) = true) with hC
      have hsplit := Finset.filter_card_add_filter_neg_card_eq_card
        (s := C) (fun s => s < 2 ^ k)
      have hlow : C.filter (fun s => s < 2 ^ k) = B := by
        apply Finset.ext
        intro s
        simp only [hB, hC, Finset.mem_filter, Finset.mem_range]
        constructor
        · rintro ⟨⟨hs2, hsub, hgs⟩, hs1⟩
          refine ⟨hs1, (land_sub_pow_iff hb hs1).mpr hsub, ?_⟩
          rw [hsub2, ← hsub1]
          exact hgs
        · rintro ⟨hs1, hsub, hgs⟩
          refine ⟨⟨by omega, (land_sub_pow_iff hb hs1).mp hsub, ?_⟩, hs1⟩
          rw [hsub1, ← hsub2]
          exact hgs
      have hhigh : C.filter (fun s => ¬s < 2 ^ k)
          = A.image (fun s => 2 ^ k + s) := by
        apply Finset.ext
        intro u
        simp only [hA, hC, Finset.mem_filter, Finset.mem_range, Finset.mem_image]
        constructor
        · rintro ⟨⟨hu2, husub, hgu⟩, hu1⟩
          push_neg at hu1
          refine ⟨u - 2 ^ k, ⟨by omega, ?_, ?_⟩, by omega⟩
          · have he : u = 2 ^ k + (u - 2 ^ k) := by omega
            rw [he] at husub
            exact (land_shift_iff hb (by omega)).mp husub
          · have he : t - t % 2 ^ k + (u - 2 ^ k)
                = t - t % 2 ^ (k + 1) + u := by omega
            rw [he]
            exact hgu
        · rintro ⟨s, ⟨hs1, hsub, hgs⟩, hu⟩
          subst hu
          refine ⟨⟨by omega, (land_shift_iff hb hs1).mpr hsub, ?_⟩, by omega⟩
          have he : t - t % 2 ^ (k + 1) + (2 ^ k + s)
              = t - t % 2 ^ k + s := by omega
          rw [he]
          exact hgs
      have hinj : Function.Injective (fun s : Nat => 2 ^ k + s) := by
        intro a b hab
        simpa using hab
      have hcards : B.card + A.card = C.card := by
        rw [← hsplit, hlow, hhigh, Finset.card_image_of_injective A hinj]
      rw [← hcards, parity_add, Bool.xor_comm]
    · have hbf : t.testBit k = false := by
        revert hb
        cases t.testBit k <;> simp
      rw [if_neg hb, ih t]
      suffices hset : (Finset.range (2 ^ (k + 1))).filter
          (fun s => s &&& t = s ∧ g (t - t % 2 ^ (k + 1) + s) = true)
          = (Finset.range (2 ^ k)).filter
            (fun s => s &&& t = s ∧ g (t - t % 2 ^ k + s) = true) by
        rw [hset]
      obtain ⟨hdec, hr⟩ := decomp_of_testBit_false hbf
      have h4 := Nat.div_add_mod t (2 ^ (k + 1))
      have hmod : t % 2 ^ (k + 1) = t % 2 ^ k := by omega
      rw [hmod]
      apply Finset.ext
      intro s
      simp only [Finset.mem_filter, Finset.mem_range]
      constructor
      · rintro ⟨hs, hsub, hgs⟩
        refine ⟨?_, hsub, hgs⟩
        by_contra hs2
        push_neg at hs2
        have hsbit : s.testBit k = true := by
          have he : s = 2 ^ k + (s - 2 ^ k) := by omega
          rw [he]
          exact testBit_two_pow_add_self (by omega)
        have hcontra := (land_eq_self_iff.mp hsub) k hsbit
        rw [hbf] at hcontra
        exact absurd hcontra (by simp)
      · rintro ⟨hs, hsub, hgs⟩
        exact ⟨by omega, hsub, hgs⟩

lemma bool_eq_false {b : Bool} (h : ¬b = true) : b = false := by
  revert h
  cases b <;> simp

/-- Bits other than the cleared one survive clearing bit `k`. -/
lemma testBit_sub_pow_ne {j k t : Nat} (h : t.testBit k = true) (hj : j ≠ k) :
    (t - 2 ^ k).testBit j = t.testBit j := by
  rcases lt_or_gt_of_ne hj with h1 | h1
  · exact testBit_sub_pow_low h h1
  · exact testBit_sub_pow_high h h1

/-- Each butterfly pass is an involution. -/
lemma anfPass_invol (k : Nat) (g : Nat → Bool) (t : Nat) :
    anfPass k (anfPass k g) t = g t := by
  by_cases hb : t.testBit k = true
  · simp only [anfPass, hb, testBit_sub_pow_self hb, if_true, if_false]
    cases g t <;> cases g (t - 2 ^ k) <;> rfl
  · have hbf : t.testBit k = false := bool_eq_false hb
    simp [anfPass, hbf]

/-- Distinct butterfly passes commute. -/
lemma anfPass_comm {j k : Nat} (h : j ≠ k) (g : Nat → Bool) (t : Nat) :
    anfPass j (anfPass k g) t = anfPass k (anfPass j g) t := by
  by_cases hj : t.testBit j = true <;> by_cases hk : t.testBit k = true
  · have h1 : (t - 2 ^ j).testBit k = true := by
      rw [testBit_sub_pow_ne hj (Ne.symm h)]
      exact hk
    have h2 : (t - 2 ^ k).testBit j = true := by
      rw [testBit_sub_pow_ne hk h]
      exact hj
    have h3 : t - 2 ^ j - 2 ^ k = t - 2 ^ k - 2 ^ j := by omega
    simp only [anfPass, hj, hk, h1, h2, h3, if_true]
    cases g t <;> cases g (t - 2 ^ j) <;> cases g (t - 2 ^ k) <;>
      cases g (t - 2 ^ k - 2 ^ j) <;> rfl
  · have hkf : t.testBit k = false := bool_eq_false hk
    have h1 : (t - 2 ^ j).testBit k = false := by
      rw [testBit_sub_pow_ne hj (Ne.symm h)]
      exact hkf
    simp [anfPass, hj, hkf, h1]
  · have hjf : t.testBit j = false := bool_eq_false hj
    have h2 : (t - 2 ^ k).testBit j = false := by
      rw [testBit_sub_pow_ne hk h]
      exact hjf
    simp [anfPass, hjf, hk, h2]
  · have hjf : t.testBit j = false := bool_eq_false hj
    have hkf : t.testBit k = false := bool_eq_false hk
    simp [anfPass, hjf, hkf]

/-- Earlier passes commute with a later pass. -/
lemma anfSteps_pass_comm (k : Nat) :
    ∀ m, m ≤ k → ∀ g, anfSteps m (anfPass k g) = anfPass k (anfSteps m g) := by
  intro m
  induction m with
  | zero => intro _ g; rfl
  | succ m ih =>
    intro hm g
    show anfPass m (anfSteps m (anfPass k g)) = anfPass k (anfPass m (anfSteps m g))
    rw [ih (by omega) g]
    funext t
    exact anfPass_comm (by omega : m ≠ k) _ t

/-- The abstract butterfly is an involution. -/
lemma anfSteps_invol : ∀ n (g : Nat → Bool) (t : Nat),
    anfSteps n (anfSteps n g) t = g t := by
  intro n
  induction n with
  | zero => intro g t; rfl
  | succ n ih =>
    intro g t
    show anfPass n (anfSteps n (anfPass n (anfSteps n g))) t = g t
    rw [anfSteps_pass_comm n n (Nat.le_refl n) (anfSteps n g),
      anfPass_invol n (anfSteps n (anfSteps n g)) t]
    exact ih g t

/-- The entry at index 0 is never touched by the butterfly. -/
lemma anfSteps_zero_index (m : Nat) (g : Nat → Bool) : anfSteps m g 0 = g 0 := by
  induction m with
  | zero => rfl
  | succ m ih =>
    show anfPass m (anfSteps m g) 0 = g 0
    simp only [anfPass]
    rw [if_neg (by simp)]
    exact ih

lemma getD_eq_getElem_bool (l : List Bool) (i : Nat) (h : i < l.length) :
    l.getD i false = l[i] := by
  rw [List.getD_eq_getElem?_getD, List.getElem?_eq_getElem h]
  rfl

/-! ### Claim theorems -/

/-- C1: for every `n ≥ 0` and every packed `rule_value` satisfying the
preconditions (type width `≥ 2 ^ n` bits and `rule_value < 2 ^ 2 ^ n`),
bit `index` of the packed transform's result is the XOR (mod-2 sum) of the
input's bits at all positions `j` with `j &&& index = j`; the same holds
element-wise for the array transform on a length-`2 ^ n` boolean array
(with `n < 64`, the width of Rust's `usize`). -/
theorem anf_transform_subset_parity :
    (∀ w n rule_value : Nat, 2 ^ n ≤ w → rule_value < 2 ^ 2 ^ n →
      ∀ index, index < 2 ^ n →
        (fast_bool_anf_transform_unsigned w rule_value n).testBit index
          = anfCoeff rule_value.testBit n index)
    ∧ (∀ (table : List Bool) (n : Nat), n < 64 → table.length = 2 ^ n →
      ∀ index, index < 2 ^ n →
        (fast_bool_anf_transform_bool_array table).getD index false
          = anfCoeff (fun j => table.getD j false) n index) := by
  constructor
  · intro w n v hw hv index hidx
    have hv2 : v < 2 ^ w :=
      lt_of_lt_of_le hv (Nat.pow_le_pow_right (by norm_num) hw)
    obtain ⟨_, _, hlow⟩ := fast_unsigned_spec w n v hw hv2
    rw [hlow index hidx, anfSteps_parity]
    have hmod : index % 2 ^ n = index := Nat.mod_eq_of_lt hidx
    simp only [anfCoeff, hmod, Nat.sub_self, Nat.zero_add]
  · intro l n hn hl index hidx
    obtain ⟨_, hlow⟩ := fast_array_spec n l hn hl
    rw [hlow index hidx, anfSteps_parity]
    have hmod : index % 2 ^ n = index := Nat.mod_eq_of_lt hidx
    simp only [anfCoeff, hmod, Nat.sub_self, Nat.zero_add]

theorem anf_transform_subset_parity_witness :
    (fast_bool_anf_transform_unsigned 32 3 2).testBit 2
        = anfCoeff (Nat.testBit 3) 2 2
    ∧ (fast_bool_anf_transform_bool_array [false, true, false, false]).getD 3 false
        = anfCoeff (fun j => [false, true, false, false].getD j false) 2 3 :=
  ⟨anf_transform_subset_parity.1 32 2 3 (by decide) (by decide) 2 (by decide),
   anf_transform_subset_parity.2 [false, true, false, false] 2 (by decide)
     (by decide) 3 (by decide)⟩

/-- C2: applying the packed transform twice (same `n`, valid input)
returns the input; applying the array transform twice restores the
original array. -/
theorem anf_transform_involution :
    (∀ w n rule_value : Nat, 2 ^ n ≤ w → rule_value < 2 ^ 2 ^ n →
      fast_bool_anf_transform_unsigned w
        (fast_bool_anf_transform_unsigned w rule_value n) n = rule_value)
    ∧ (∀ (table : List Bool) (n : Nat), n < 64 → table.length = 2 ^ n →
      fast_bool_anf_transform_bool_array
        (fast_bool_anf_transform_bool_array table) = table) := by
  constructor
  · intro w n v hw hv
    have hv2 : v < 2 ^ w :=
      lt_of_lt_of_le hv (Nat.pow_le_pow_right (by norm_num) hw)
    obtain ⟨hlt1, hhigh1, hlow1⟩ := fast_unsigned_spec w n v hw hv2
    obtain ⟨hlt2, hhigh2, hlow2⟩ :=
      fast_unsigned_spec w n (fast_bool_anf_transform_unsigned w v n) hw hlt1
    apply Nat.eq_of_testBit_eq
    intro t
    by_cases ht : t < 2 ^ n
    · rw [hlow2 t ht,
        anfSteps_congr n (fast_bool_anf_transform_unsigned w v n).testBit
          (anfSteps n v.testBit) t
          (fun s hs => hlow1 s (lt_of_le_of_lt hs ht))]
      exact anfSteps_invol n v.testBit t
    · push_neg at ht
      rw [hhigh2 t ht, hhigh1 t ht]
  · intro l n hn hl
    obtain ⟨hlen1, hlow1⟩ := fast_array_spec n l hn hl
    have hl1 : (fast_bool_anf_transform_bool_array l).length = 2 ^ n := by
      rw [hlen1, hl]
    obtain ⟨hlen2, hlow2⟩ :=
      fast_array_spec n (fast_bool_anf_transform_bool_array l) hn hl1
    apply List.ext_getElem
    · rw [hlen2, hl1, hl]
    · intro i h1 h2
      have hi : i < 2 ^ n := by rw [← hl]; exact h2
      rw [← getD_eq_getElem_bool _ _ h1, ← getD_eq_getElem_bool _ _ h2,
        hlow2 i hi,
        anfSteps_congr n (fun j => (fast_bool_anf_transform_bool_array l).getD j false)
          (anfSteps n (fun j => l.getD j false)) i
          (fun s hs => hlow1 s (lt_of_le_of_lt hs hi))]
      exact anfSteps_invol n (fun j => l.getD j false) i

theorem anf_transform_involution_witness :
    fast_bool_anf_transform_unsigned 32
        (fast_bool_anf_transform_unsigned 32 5 2) 2 = 5
    ∧ fast_bool_anf_transform_bool_array
        (fast_bool_anf_transform_bool_array [true, false, false, true])
      = [true, false, false, true] :=
  ⟨anf_transform_involution.1 32 2 5 (by decide) (by decide),
   anf_transform_involution.2 [true, false, false, true] 2 (by decide) (by decide)⟩

/-- C3: on truth tables that agree bit-for-bit, the packed and the array
transforms produce results that again agree bit-for-bit. -/
theorem anf_transform_equivalence :
    ∀ (w n rule_value : Nat) (table : List Bool), 2 ^ n ≤ w → n < 64 →
      rule_value < 2 ^ 2 ^ n → table.length = 2 ^ n →
      (∀ i, i < 2 ^ n → table.getD i false = rule_value.testBit i) →
      ∀ i, i < 2 ^ n →
        (fast_bool_anf_transform_bool_array table).getD i false
          = (fast_bool_anf_transform_unsigned w rule_value n).testBit i := by
  intro w n v l hw hn hv hl hagree i hi
  have hv2 : v < 2 ^ w :=
    lt_of_lt_of_le hv (Nat.pow_le_pow_right (by norm_num) hw)
  obtain ⟨_, _, hlow⟩ := fast_unsigned_spec w n v hw hv2
  obtain ⟨_, hlowA⟩ := fast_array_spec n l hn hl
  rw [hlowA i hi, hlow i hi]
  exact anfSteps_congr n _ _ i (fun s hs => hagree s (lt_of_le_of_lt hs hi))

theorem anf_transform_equivalence_witness :
    (fast_bool_anf_transform_bool_array [false, true, false, false]).getD 3 false
      = (fast_bool_anf_transform_unsigned 32 2 2).testBit 3 :=
  anf_transform_equivalence 32 2 2 [false, true, false, false] (by decide)
    (by decide) (by decide) (by decide) (by decide) 3 (by decide)

set_option maxRecDepth 4000 in
/-- C4: the concrete values the spec records: the full `n = 2` packed
table, the two `n = 3` packed values, and the three array scenarios. -/
theorem anf_transform_known_values :
    (fast_bool_anf_transform_unsigned 32 0 2 = 0
      ∧ fast_bool_anf_transform_unsigned 32 1 2 = 15
      ∧ fast_bool_anf_transform_unsigned 32 2 2 = 10
      ∧ fast_bool_anf_transform_unsigned 32 3 2 = 5
      ∧ fast_bool_anf_transform_unsigned 32 4 2 = 12
      ∧ fast_bool_anf_transform_unsigned 32 5 2 = 3
      ∧ fast_bool_anf_transform_unsigned 32 6 2 = 6
      ∧ fast_bool_anf_transform_unsigned 32 7 2 = 9
      ∧ fast_bool_anf_transform_unsigned 32 8 2 = 8
      ∧ fast_bool_anf_transform_unsigned 32 9 2 = 7
      ∧ fast_bool_anf_transform_unsigned 32 10 2 = 2
      ∧ fast_bool_anf_transform_unsigned 32 11 2 = 13
      ∧ fast_bool_anf_transform_unsigned 32 12 2 = 4
      ∧ fast_bool_anf_transform_unsigned 32 13 2 = 11
      ∧ fast_bool_anf_transform_unsigned 32 14 2 = 14
      ∧ fast_bool_anf_transform_unsigned 32 15 2 = 1)
    ∧ (fast_bool_anf_transform_unsigned 32 240 3 = 16
      ∧ fast_bool_anf_transform_unsigned 32 30 3 = 30)
    ∧ (fast_bool_anf_transform_bool_array [false, true, false, false]
        = [false, true, false, true]
      ∧ fast_bool_anf_transform_bool_array [true, true, true, true]
        = [true, false, false, false]
      ∧ fast_bool_anf_transform_bool_array [false, false, false, false]
        = [false, false, false, false]) := by
  refine ⟨⟨?_, ?_, ?_, ?_, ?_, ?_, ?_, ?_, ?_, ?_, ?_, ?_, ?_, ?_, ?_, ?_⟩,
    ⟨?_, ?_⟩, ⟨?_, ?_, ?_⟩⟩ <;> decide

/-- C5: the output's value at index 0 equals the input's value at index 0,
for both variants on valid inputs. -/
theorem anf_transform_constant_term :
    (∀ w n rule_value : Nat, 2 ^ n ≤ w → rule_value < 2 ^ 2 ^ n →
      (fast_bool_anf_transform_unsigned w rule_value n).testBit 0
        = rule_value.testBit 0)
    ∧ (∀ (table : List Bool) (n : Nat), n < 64 → table.length = 2 ^ n →
      (fast_bool_anf_transform_bool_array table).getD 0 false
        = table.getD 0 false) := by
  constructor
  · intro w n v hw hv
    have hv2 : v < 2 ^ w :=
      lt_of_lt_of_le hv (Nat.pow_le_pow_right (by norm_num) hw)
    obtain ⟨_, _, hlow⟩ := fast_unsigned_spec w n v hw hv2
    rw [hlow 0 (Nat.two_pow_pos n)]
    exact anfSteps_zero_index n v.testBit
  · intro l n hn hl
    obtain ⟨_, hlow⟩ := fast_array_spec n l hn hl
    rw [hlow 0 (Nat.two_pow_pos n)]
    exact anfSteps_zero_index n _

theorem anf_transform_constant_term_witness :
    (fast_bool_anf_transform_unsigned 32 6 2).testBit 0 = (6 : Nat).testBit 0
    ∧ (fast_bool_anf_transform_bool_array [true, false, true, false]).getD 0 false
      = [true, false, true, false].getD 0 false :=
  ⟨anf_transform_constant_term.1 32 2 6 (by decide) (by decide),
   anf_transform_constant_term.2 [true, false, true, false] 2 (by decide)
     (by decide)⟩

/-- C6: a packed `rule_value ≥ 2 ^ 2 ^ n` (representable in the `w`-bit
type) is reported as `OutOfDomain` before any computation; in particular
`rule_value = 16`, `num_variables = 2`. -/
theorem packed_out_of_domain :
    ∀ w n rule_value : Nat, rule_value < 2 ^ w → 2 ^ 2 ^ n ≤ rule_value →
      fast_bool_anf_transform_unsigned_checked w rule_value n
        = .error .OutOfDomain := by
  intro w n v hvw hv
  have h1 : 2 ^ 2 ^ n < 2 ^ w := lt_of_le_of_lt hv hvw
  have h2 : 2 ^ n < w := by
    by_contra h
    push_neg at h
    have h3 : (2 : Nat) ^ w ≤ 2 ^ 2 ^ n := Nat.pow_le_pow_right (by norm_num) h
    omega
  simp only [fast_bool_anf_transform_unsigned_checked, one_shiftLeft_eq]
  rw [if_neg (by omega), if_pos hv]

theorem packed_out_of_domain_witness :
    fast_bool_anf_transform_unsigned_checked 32 16 2
      = .error .OutOfDomain :=
  packed_out_of_domain 32 2 16 (by norm_num) (by norm_num)

/-- C7: an array whose length is not an exact power of two is reported as
`InvalidLength` with the buffer (second component) left untouched. -/
theorem array_invalid_length :
    ∀ table : List Bool, (∀ m : Nat, table.length ≠ 2 ^ m) →
      fast_bool_anf_transform_bool_array_checked table
        = (.error .InvalidLength, table) := by
  intro l h
  have hne : l.length ≠ 1 <<< trailingZeros l.length := by
    rw [one_shiftLeft_eq]
    exact h (trailingZeros l.length)
  simp only [fast_bool_anf_transform_bool_array_checked]
  rw [if_pos hne]

theorem array_invalid_length_witness :
    fast_bool_anf_transform_bool_array_checked
        [false, false, false, false, true, true, true]
      = (.error .InvalidLength, [false, false, false, false, true, true, true]) := by
  apply array_invalid_length
  intro m
  show 7 ≠ 2 ^ m
  match m with
  | 0 => decide
  | 1 => decide
  | 2 => decide
  | m + 3 =>
    have h1 : 2 ^ 3 ≤ 2 ^ (m + 3) :=
      Nat.pow_le_pow_right (by norm_num) (by omega)
    omega

/-- C8: a type width smaller than `2 ^ n` is reported as
`InsufficientCapacity`, before any computation. -/
theorem packed_insufficient_capacity :
    ∀ w n rule_value : Nat, w < 2 ^ n →
      fast_bool_anf_transform_unsigned_checked w rule_value n
        = .error .InsufficientCapacity := by
  intro w n v h
  simp only [fast_bool_anf_transform_unsigned_checked, one_shiftLeft_eq]
  rw [if_pos h]

theorem packed_insufficient_capacity_witness :
    fast_bool_anf_transform_unsigned_checked 16 16 5
      = .error .InsufficientCapacity :=
  packed_insufficient_capacity 16 5 16 (by norm_num)

/-- C9: the packed transform only writes bits below `2 ^ n`: every result
bit at a position `≥ 2 ^ n` equals the input's bit, and consequently the
domain `rule_value < 2 ^ 2 ^ n` is closed under the transform. -/
theorem packed_high_bits_invariant :
    (∀ w n rule_value index : Nat, 2 ^ n ≤ w → rule_value < 2 ^ w →
      2 ^ n ≤ index →
      (fast_bool_anf_transform_unsigned w rule_value n).testBit index
        = rule_value.testBit index)
    ∧ (∀ w n rule_value : Nat, 2 ^ n ≤ w → rule_value < 2 ^ 2 ^ n →
      fast_bool_anf_transform_unsigned w rule_value n < 2 ^ 2 ^ n) := by
  constructor
  · intro w n v idx hw hv hidx
    obtain ⟨_, hhigh, _⟩ := fast_unsigned_spec w n v hw hv
    exact hhigh idx hidx
  · intro w n v hw hv
    have hv2 : v < 2 ^ w :=
      lt_of_lt_of_le hv (Nat.pow_le_pow_right (by norm_num) hw)
    obtain ⟨_, hhigh, _⟩ := fast_unsigned_spec w n v hw hv2
    apply Nat.lt_pow_two_of_testBit
    intro i hi
    rw [hhigh i hi]
    exact Nat.testBit_lt_two_pow
      (lt_of_lt_of_le hv (Nat.pow_le_pow_right (by norm_num) hi))

theorem packed_high_bits_invariant_witness :
    (fast_bool_anf_transform_unsigned 32 100 2).testBit 5 = (100 : Nat).testBit 5
    ∧ fast_bool_anf_transform_unsigned 32 9 2 < 2 ^ 2 ^ 2 :=
  ⟨packed_high_bits_invariant.1 32 2 100 5 (by decide) (by norm_num) (by decide),
   packed_high_bits_invariant.2 32 2 9 (by decide) (by decide)⟩

/-- C10: with zero variables the packed transform is the identity, and the
array transform leaves a length-1 array unchanged. -/
theorem zero_variables_identity :
    (∀ w rule_value : Nat,
      fast_bool_anf_transform_unsigned w rule_value 0 = rule_value)
    ∧ (∀ table : List Bool, table.length = 1 →
      fast_bool_anf_transform_bool_array table = table) := by
  constructor
  · intro w v
    rfl
  · intro l hl
    have htz : trailingZeros l.length = 0 := by rw [hl]; rfl
    rw [fast_array_eq_passes, htz]
    rfl

theorem zero_variables_identity_witness :
    fast_bool_anf_transform_bool_array [true] = [true] :=
  zero_variables_identity.2 [true] rfl

end FastBoolAnf
